import Mathlib

/- Formal model of `rosbridge_library/capabilities/fragmentation.py`
   (class `Fragmentation`).

   Modelling conventions:
   * Python strings are lists of characters; Python non-negative ints are `Nat`.
   * Python 2 `/` on non-negative ints is floor division, i.e. `Nat.div`.
   * `len(str(d))` for a fragment dictionary `d` is the affine function
     `strLenFrame` below: the Python 2 `repr` of the dict contributes a fixed
     62 characters for braces, keys, quotes and separators, plus the length of
     each string value plus the decimal-digit count of each integer value
     (assuming the payload contains no characters that `repr` would escape;
     the source only ever applies `len(str(...))` to fragments with empty
     payload, where the accounting is exact).
   * `math.floor(math.log(n)/math.log(10))` is modelled exactly as
     floor(log10 n) (`lg` below); the float rounding of the CPython
     implementation agrees with the exact value for all arguments below 1000,
     which covers every concrete input used in this development.
   * The `while` loop of `_determine_n_fragments` can run forever; it is
     modelled with explicit fuel, `none` meaning that the loop has not
     terminated within the given fuel.  The `except RuntimeError` branch of
     `_fragment_generator` is unreachable: the loop body raises no exception,
     so a cap that is too small makes the source hang instead of raising. -/

/-- Fuel-bounded floor of the base-10 logarithm: `lgAux fuel n` counts how
often `n` can be divided by 10 before falling below 10. -/
def lgAux : Nat → Nat → Nat
  | 0, _ => 0
  | fuel + 1, n => if n < 10 then 0 else lgAux fuel (n / 10) + 1

/-- Floor of the base-10 logarithm (0 for inputs 0 and 1); models the
source's `math.floor(math.log(n)/math.log(10))` for `n ≥ 1`. -/
def lg (n : Nat) : Nat := lgAux n n

/-- Length of the decimal representation of a natural number, `len(str(n))`. -/
def digitsLen (n : Nat) : Nat := lg n + 1

/-- One fragment message dictionary, as built by
`Fragmentation._create_fragment`. -/
structure Frame where
  op : String
  id : Nat
  data : List Char
  num : Nat
  total : Nat
  fill : List Char
deriving DecidableEq

/-- `Fragmentation._create_fragment(fragment, num, total, mid, fill)`:
builds the fragment message dictionary. -/
def createFragment (fragment : List Char) (num total mid : Nat) (fill : List Char) : Frame :=
  { op := "fragment", id := mid, data := fragment, num := num, total := total, fill := fill }

/-- `len(str(f))` for a fragment dictionary `f` under Python 2 dict repr:
62 fixed characters (braces, quoted keys, colons, separators, string quotes)
plus the lengths of the three string fields and the digit counts of the three
integer fields. -/
def strLenFrame (f : Frame) : Nat :=
  62 + f.op.length + f.data.length + f.fill.length +
    digitsLen f.id + digitsLen f.num + digitsLen f.total

/-- Loop state of `Fragmentation._determine_n_fragments`: the list `A` of
running working lengths (the source only ever reads `A[-1]`), the working
length `msg_len`, the current `header_size` and the trial fragment count
`total`. -/
structure PlanState where
  A : List Nat
  msg_len : Nat
  header_size : Nat
  total : Nat
deriving DecidableEq

/-- One iteration of the `while` loop of `_determine_n_fragments`:
`msg_len += header_size`; `temp = total + 1`; if the digit length of `temp`
exceeds that of `total` then `msg_len += temp` and `header_size += 2`;
`total = temp`; `A.append(msg_len)`. -/
def planStep (s : PlanState) : PlanState :=
  let msg_len := s.msg_len + s.header_size
  let temp := s.total + 1
  if lg temp > lg s.total then
    { A := s.A ++ [msg_len + temp], msg_len := msg_len + temp,
      header_size := s.header_size + 2, total := temp }
  else
    { A := s.A ++ [msg_len], msg_len := msg_len,
      header_size := s.header_size, total := temp }

/-- The loop guard of `_determine_n_fragments`: `A[-1]/total + 1 > size`
(Python 2 floor division). -/
def planGuard (size : Nat) (s : PlanState) : Bool :=
  size < s.A.getLastD 0 / s.total + 1

/-- Fuel-bounded run of the `while` loop of `_determine_n_fragments`;
`none` means the loop did not exit within `fuel` iterations. -/
def planRun (size : Nat) : Nat → PlanState → Option PlanState
  | 0, _ => none
  | fuel + 1, s => if planGuard size s then planRun size fuel (planStep s) else some s

/-- `Fragmentation._determine_n_fragments(msg_len, size, header_size)`:
initial state `A = [msg_len + header_size]`, `total = 1`; on loop exit
returns `(msg_len/total + 1, total)`. -/
def determineNFragments (fuel msg_len size header_size : Nat) : Option (Nat × Nat) :=
  let s0 : PlanState :=
    { A := [msg_len + header_size], msg_len := msg_len + header_size,
      header_size := header_size, total := 1 }
  (planRun size fuel s0).map (fun s => (s.msg_len / s.total + 1, s.total))

/-- Python slice `s[a:b]` for integer bounds: negative indices count from the
end, indices are clamped to `[0, len(s)]`, and an empty slice results when
the effective start is not below the effective stop. -/
def pySlice (s : List Char) (a b : Int) : List Char :=
  let n : Int := (s.length : Int)
  let start : Int := if a < 0 then max (n + a) 0 else min a n
  let stop : Int := if b < 0 then max (n + b) 0 else min b n
  (s.take stop.toNat).drop start.toNat

/-- Payload capacity of frame `n` in `_fragment_generator`:
`msg_length - len(str(create_fragment("", n, total, mid, "")))`, as a Python
int (may be negative). -/
def fsZ (budget total mid n : Nat) : Int :=
  (budget : Int) - (strLenFrame (createFragment [] n total mid []) : Int)

/-- The `for n in range(total)` loop of `_fragment_generator`, carrying the
cursor `i` and the current `fragment_size` exactly as the source does:
slice the payload, choose the fill length (with the end-of-message
correction), yield the fragment, advance the cursor, recompute the
fragment size for `n + 1`. -/
def fragLoop (msg : List Char) (size budget total mid : Nat) :
    List Nat → Int → Int → List Frame
  | [], _, _ => []
  | n :: ns, i, fragment_size =>
    let fragment := pySlice msg i (min (i + fragment_size) (msg.length : Int))
    let fill_length : Int :=
      if (msg.length : Int) < i + fragment_size then
        (size : Int) - (budget : Int) + (i + fragment_size - (msg.length : Int))
      else
        (size : Int) - (budget : Int)
    createFragment fragment n total mid (List.replicate fill_length.toNat '0') ::
      fragLoop msg size budget total mid ns (i + fragment_size)
        ((budget : Int) - (strLenFrame (createFragment [] (n + 1) total mid []) : Int))

/-- Body of `_fragment_generator` once planning has produced
`(msg_length, total)` (here `budget` and `total`): the fragment loop starting
at cursor 0 with the fragment size computed for `num = 0`. -/
def fragGenBody (msg : List Char) (size budget total mid : Nat) : List Frame :=
  fragLoop msg size budget total mid (List.range total) 0
    ((budget : Int) - (strLenFrame (createFragment [] 0 total mid []) : Int))

/-- `Fragmentation._fragment_generator(msg, size, mid)`: computes
`header_size = len(str(create_fragment("", 0, 0, mid, "")))`, plans, and
yields the fragment frames.  `none` models the case in which
`_determine_n_fragments` has not terminated within `fuel` iterations (its
loop raises no exception, so the `except RuntimeError` branch of the source
is unreachable and no frame is ever yielded in that case). -/
def fragmentGen (fuel : Nat) (msg : List Char) (size mid : Nat) : Option (List Frame) :=
  let header_size := strLenFrame (createFragment [] 0 0 mid [])
  (determineNFragments fuel msg.length size header_size).map
    (fun bt => fragGenBody msg size bt.fst bt.snd mid)

/-- Per-instance mutable state of a `Fragmentation` object: the
`fragmentation_seed` counter. -/
structure FragState where
  fragmentation_seed : Nat
deriving DecidableEq

/-- Diagnostic log entries visible at the fragmenter boundary. -/
inductive LogEntry where
  /-- The informational fragmentation-plan summary logged by `fragment`
  (number of parts `ceil(message_length / fragment_size)` and the fragment
  size; the advisory float duration estimate is not modelled). -/
  | info : Nat → Nat → LogEntry
  /-- An error-severity entry. -/
  | error : String → LogEntry
  /-- Modelled from the spec: the external serializer collaborator reports a
  `SerializationFailed` condition to the diagnostic sink.  The serializer
  (`protocol.serialize`) lives outside the fragmentation source file. -/
  | serializationFailed : LogEntry
deriving DecidableEq

/-- Modelled from the spec: `protocol.serialize(message, mid)` either yields
the serialized text or signals `SerializationFailed`, reporting the failure
to the diagnostic sink rather than raising; the fragmenter sees `None` plus
the diagnostic entry.  The serializer itself is an external collaborator not
present in the fragmentation source file. -/
def serializeLogged {α : Type} (ser : α → Nat → Option (List Char))
    (message : α) (mid : Nat) : Option (List Char) × List LogEntry :=
  match ser message mid with
  | none => (none, [LogEntry.serializationFailed])
  | some s => (some s, [])

/-- Result of `Fragmentation.fragment`: the empty list (serialization
failed), the single-element list holding the original unserialized message
(no-op short-circuit), or the fragment generator.  In the generator case
`none` models a generator whose consumption never terminates because the
planner loops forever. -/
inductive FragResult (α : Type) where
  | empty : FragResult α
  | unfragmented : α → FragResult α
  | fragmented : Option (List Frame) → FragResult α
deriving DecidableEq

/-- The identifier `fragment` uses: the explicit `mid` when provided,
otherwise the current `fragmentation_seed`. -/
def chosenMid (st : FragState) (mid : Option Nat) : Nat :=
  match mid with
  | none => st.fragmentation_seed
  | some m => m

/-- State of the `fragmentation_seed` after a call to `fragment`:
incremented exactly when no explicit `mid` was supplied (the source assigns
`mid = self.fragmentation_seed` and then post-increments the seed). -/
def nextSeedState (st : FragState) (mid : Option Nat) : FragState :=
  match mid with
  | none => { fragmentation_seed := st.fragmentation_seed + 1 }
  | some _ => st

/-- `Fragmentation.fragment(message, fragment_size, mid)`: draw an id from
the seed when `mid` is absent (post-increment), serialize, return `[]` on
serialization failure, return `[message]` when the serialized length is
within the cap, otherwise log the plan summary and return the fragment
generator.  The dead read `message.get("id", None)` of the source has no
effect and is not modelled; the input message is never mutated (the model is
pure and returns the very message value in the short-circuit case). -/
def fragment {α : Type} (ser : α → Nat → Option (List Char)) (fuel : Nat)
    (st : FragState) (message : α) (fragment_size : Nat) (mid : Option Nat) :
    FragState × FragResult α × List LogEntry :=
  match serializeLogged ser message (chosenMid st mid) with
  | (none, logs) => (nextSeedState st mid, FragResult.empty, logs)
  | (some serialized, logs) =>
    if serialized.length ≤ fragment_size then
      (nextSeedState st mid, FragResult.unfragmented message, logs)
    else
      (nextSeedState st mid,
        FragResult.fragmented (fragmentGen fuel serialized fragment_size (chosenMid st mid)),
        logs ++ [LogEntry.info ((serialized.length + fragment_size - 1) / fragment_size)
          fragment_size])

/-- Loop state of the planner as described by claim C3: working length,
header size and trial total, without the vestigial list `A`. -/
structure AState where
  msg_len : Nat
  header_size : Nat
  total : Nat
deriving DecidableEq

/-- The loop body common to the claimed and the amended planner: identical to
`planStep` but on the `A`-free state. -/
def aStep (s : AState) : AState :=
  let msg_len := s.msg_len + s.header_size
  let temp := s.total + 1
  if lg temp > lg s.total then
    { msg_len := msg_len + temp, header_size := s.header_size + 2, total := temp }
  else
    { msg_len := msg_len, header_size := s.header_size, total := temp }

/-- Planner following the words of claim C3: iterate exactly while
`workingLength / total > sizeCap` and return
`(workingLength / total, total)` (integer division, no `+ 1`). -/
def claimRun (size : Nat) : Nat → AState → Option AState
  | 0, _ => none
  | fuel + 1, s => if size < s.msg_len / s.total then claimRun size fuel (aStep s) else some s

/-- Planner following the words of claim C3 (see `claimRun`). -/
def determineNFragmentsClaim (fuel msg_len size header_size : Nat) : Option (Nat × Nat) :=
  (claimRun size fuel ⟨msg_len + header_size, header_size, 1⟩).map
    (fun s => (s.msg_len / s.total, s.total))

/-- Planner following the amended claim C3: iterate exactly while
`workingLength / total + 1 > sizeCap` and return
`(workingLength / total + 1, total)`. -/
def amendRun (size : Nat) : Nat → AState → Option AState
  | 0, _ => none
  | fuel + 1, s => if size < s.msg_len / s.total + 1 then amendRun size fuel (aStep s) else some s

/-- Planner following the amended claim C3 (see `amendRun`). -/
def determineNFragmentsAmended (fuel msg_len size header_size : Nat) : Option (Nat × Nat) :=
  (amendRun size fuel ⟨msg_len + header_size, header_size, 1⟩).map
    (fun s => (s.msg_len / s.total + 1, s.total))

/-- Erase the vestigial list `A` from a planner state. -/
def eraseA (s : PlanState) : AState :=
  { msg_len := s.msg_len, header_size := s.header_size, total := s.total }

/-- Sum of `lg t` for `t < T` (so `S T = Σ_{t<T} (digitsLen t - 1)`). -/
def sumLg : Nat → Nat
  | 0 => 0
  | T + 1 => sumLg T + lg T

/-- `powSum g = 10 + 100 + ... + 10^g` (0 when `g = 0`). -/
def powSum : Nat → Nat
  | 0 => 0
  | g + 1 => powSum g + 10 ^ (g + 1)

/-- Invariant of the planner loop of `_determine_n_fragments` started on a
message of length `L` with initial header size `h0`. -/
def PlanInv (L h0 : Nat) (s : PlanState) : Prop :=
  1 ≤ s.total ∧
  s.msg_len = L + s.total * (h0 + lg s.total) + sumLg s.total ∧
  s.header_size = h0 + 2 * lg s.total ∧
  s.A.getLastD 0 = s.msg_len

/-- Cursor position of `_fragment_generator` before frame `n`: the sum of
the payload capacities of the earlier frames. -/
def cursor (budget total mid : Nat) : Nat → Int
  | 0 => 0
  | n + 1 => cursor budget total mid n + fsZ budget total mid n

/-- Concrete witness message: 130 characters. -/
def wMsg : List Char := List.replicate 130 'a'

/-- Default frame used to extract concrete frames from witness runs. -/
def defaultFrame : Frame := createFragment [] 0 0 0 []

/-- Frames produced for the witness message with cap 120 and id 0. -/
def wFrames : List Frame := (fragmentGen 32 wMsg 120 0).getD []

/-- A serializer that always produces the 130-character witness text. -/
def wSer : Nat → Nat → Option (List Char) := fun _ _ => some wMsg

/-- A serializer that always fails. -/
def wSerFail : Nat → Nat → Option (List Char) := fun _ _ => none

theorem lgAux_eq_log : ∀ fuel n, n ≤ fuel → lgAux fuel n = Nat.log 10 n := by
  intro fuel
  induction fuel with
  | zero =>
    intro n hn
    interval_cases n
    simp [lgAux]
  | succ fuel ih =>
    intro n hn
    by_cases h : n < 10
    · simp [lgAux, h, Nat.log_of_lt h]
    · have h10 : 10 ≤ n := Nat.le_of_not_lt h
      have hdiv : n / 10 ≤ fuel := by
        have : n / 10 < n := Nat.div_lt_self (by omega) (by omega)
        omega
      simp only [lgAux, if_neg h]
      rw [ih _ hdiv, Nat.log_of_one_lt_of_le (by norm_num) h10]

theorem lg_eq_log (n : Nat) : lg n = Nat.log 10 n := lgAux_eq_log n n le_rfl

theorem lg_mono {m n : Nat} (h : m ≤ n) : lg m ≤ lg n := by
  rw [lg_eq_log, lg_eq_log]; exact Nat.log_mono_right h

theorem lg_succ_le (n : Nat) : lg (n + 1) ≤ lg n + 1 := by
  rcases Nat.eq_zero_or_pos n with h0 | hpos
  · subst h0; simp [lg, lgAux]
  · rw [lg_eq_log, lg_eq_log]
    calc Nat.log 10 (n + 1) ≤ Nat.log 10 (n * 10) :=
          Nat.log_mono_right (by omega)
      _ = Nat.log 10 n + 1 := Nat.log_mul_base (by norm_num) (by omega)

theorem lg_succ_eq_pow {n : Nat} (h : lg (n + 1) = lg n + 1) :
    n + 1 = 10 ^ (lg n + 1) := by
  rw [lg_eq_log] at h
  rw [lg_eq_log] at h ⊢
  have h1 : 10 ^ Nat.log 10 (n + 1) ≤ n + 1 := Nat.pow_log_le_self 10 (by omega)
  have h2 : n < 10 ^ (Nat.log 10 n + 1) := Nat.lt_pow_succ_log_self (by norm_num) n
  rw [h] at h1
  omega

theorem lg_ge_two {n : Nat} (h : 100 ≤ n) : 2 ≤ lg n := by
  rw [lg_eq_log]
  exact (Nat.pow_le_iff_le_log (by norm_num) (by omega)).mp (by norm_num; omega)

theorem sumLg_add_powSum (T : Nat) : sumLg T + powSum (lg T) = T * lg T := by
  induction T with
  | zero => simp [sumLg, lg, lgAux, powSum]
  | succ T ih =>
    have hmono : lg T ≤ lg (T + 1) := lg_mono (Nat.le_succ T)
    have hle : lg (T + 1) ≤ lg T + 1 := lg_succ_le T
    rcases Nat.lt_or_ge (lg T) (lg (T + 1)) with hlt | hge
    · have heq : lg (T + 1) = lg T + 1 := by omega
      have hpow : T + 1 = 10 ^ (lg T + 1) := lg_succ_eq_pow heq
      rw [heq]
      show sumLg T + lg T + (powSum (lg T) + 10 ^ (lg T + 1)) = (T + 1) * (lg T + 1)
      rw [← hpow, Nat.mul_succ, Nat.succ_mul]
      omega
    · have heq : lg (T + 1) = lg T := by omega
      rw [heq]
      show sumLg T + lg T + powSum (lg T) = (T + 1) * lg T
      rw [Nat.succ_mul]
      omega

theorem planInv_init (L h0 : Nat) :
    PlanInv L h0 ⟨[L + h0], L + h0, h0, 1⟩ := by
  refine ⟨le_rfl, ?_, ?_, rfl⟩
  · show L + h0 = L + 1 * (h0 + lg 1) + sumLg 1
    have h1 : lg 1 = 0 := rfl
    have h0' : sumLg 1 = 0 := rfl
    rw [h1, h0']; ring
  · show h0 = h0 + 2 * lg 1
    rfl

theorem planStep_inv {L h0 : Nat} {s : PlanState} (h : PlanInv L h0 s) :
    PlanInv L h0 (planStep s) := by
  obtain ⟨ht, hm, hh, hA⟩ := h
  have hmono : lg s.total ≤ lg (s.total + 1) := lg_mono (Nat.le_succ _)
  have hle : lg (s.total + 1) ≤ lg s.total + 1 := lg_succ_le s.total
  have hS : sumLg (s.total + 1) = sumLg s.total + lg s.total := rfl
  unfold planStep
  by_cases hc : lg (s.total + 1) > lg s.total
  · have heq : lg (s.total + 1) = lg s.total + 1 := by omega
    have hpow : s.total + 1 = 10 ^ (lg s.total + 1) := lg_succ_eq_pow heq
    simp only [if_pos hc]
    refine ⟨by simp, ?_, ?_, ?_⟩
    · show s.msg_len + s.header_size + (s.total + 1) =
        L + (s.total + 1) * (h0 + lg (s.total + 1)) + sumLg (s.total + 1)
      rw [heq, hS, hm, hh]; ring
    · show s.header_size + 2 = h0 + 2 * lg (s.total + 1)
      rw [heq, hh]; ring
    · exact List.getLastD_concat _ _ _
  · have heq : lg (s.total + 1) = lg s.total := by omega
    simp only [if_neg hc]
    refine ⟨by simp, ?_, ?_, ?_⟩
    · show s.msg_len + s.header_size =
        L + (s.total + 1) * (h0 + lg (s.total + 1)) + sumLg (s.total + 1)
      rw [heq, hS, hm, hh]; ring
    · show s.header_size = h0 + 2 * lg (s.total + 1)
      rw [heq, hh]
    · exact List.getLastD_concat _ _ _

theorem planRun_some {L h0 size : Nat} :
    ∀ fuel (s s' : PlanState), planRun size fuel s = some s' → PlanInv L h0 s →
      PlanInv L h0 s' ∧ planGuard size s' = false ∧
        (s' = s ∨ ∃ s1, PlanInv L h0 s1 ∧ planGuard size s1 = true ∧ planStep s1 = s') := by
  intro fuel
  induction fuel with
  | zero => intro s s' hrun; simp [planRun] at hrun
  | succ fuel ih =>
    intro s s' hrun hinv
    by_cases hg : planGuard size s = true
    · rw [planRun, if_pos hg] at hrun
      obtain ⟨hinv', hg', hcase⟩ := ih (planStep s) s' hrun (planStep_inv hinv)
      refine ⟨hinv', hg', Or.inr ?_⟩
      rcases hcase with heq | ⟨s1, h1, h2, h3⟩
      · exact ⟨s, hinv, hg, heq.symm⟩
      · exact ⟨s1, h1, h2, h3⟩
    · rw [planRun, if_neg hg] at hrun
      have : s' = s := by injection hrun with h; exact h.symm
      subst this
      exact ⟨hinv, by simpa using hg, Or.inl rfl⟩


theorem planStep_total (s : PlanState) : (planStep s).total = s.total + 1 := by
  unfold planStep
  by_cases hc : lg (s.total + 1) > lg s.total
  · simp only [if_pos hc]
  · simp only [if_neg hc]

theorem planGuard_true_iff (size : Nat) (s : PlanState) :
    planGuard size s = true ↔ size < s.A.getLastD 0 / s.total + 1 := by
  simp [planGuard]

theorem key_bounds {fuel L size h0 budget T : Nat} (hLs : size < L)
    (hrun : determineNFragments fuel L size h0 = some (budget, T)) :
    2 ≤ T ∧ budget = h0 + lg T + 1 + (L + sumLg T) / T ∧ budget ≤ size ∧
      lg T ≤ (L + sumLg T) / T ∧ T + lg T ≤ (L + sumLg T) / T + (L + sumLg T) % T + 1 := by
  unfold determineNFragments at hrun
  obtain ⟨s', hP, hf⟩ := Option.map_eq_some'.mp hrun
  obtain ⟨hinv', hg', hcase⟩ := planRun_some fuel _ s' hP (planInv_init L h0)
  have hg0 : planGuard size (⟨[L + h0], L + h0, h0, 1⟩ : PlanState) = true := by
    rw [planGuard_true_iff]
    show size < (List.getLastD [L + h0] 0) / 1 + 1
    simpa [Nat.div_one] using by omega
  rcases hcase with heq | ⟨s1, hinv1, hg1, hstep⟩
  · rw [heq, hg0] at hg'; cases hg'
  · obtain ⟨ht1, hm1, hh1, hA1⟩ := hinv1
    obtain ⟨ht', hm', hh', hA'⟩ := hinv'
    have hfst : s'.msg_len / s'.total + 1 = budget := congrArg Prod.fst hf
    have hsnd : s'.total = T := congrArg Prod.snd hf
    have hTstep : s'.total = s1.total + 1 := by
      rw [← hstep]; exact planStep_total s1
    have hT : T = s1.total + 1 := by rw [← hsnd]; exact hTstep
    have hT2 : 2 ≤ T := by omega
    have hTpos : 0 < s'.total := by omega
    have hmT : s'.msg_len = s'.total * (h0 + lg s'.total) + (L + sumLg s'.total) := by
      rw [hm']; ring
    have hdivT : s'.msg_len / s'.total =
        (h0 + lg s'.total) + (L + sumLg s'.total) / s'.total := by
      rw [hmT]; exact Nat.mul_add_div hTpos _ _
    have hbudget : budget = h0 + lg T + 1 + (L + sumLg T) / T := by
      rw [← hfst, hdivT, hsnd]; ring
    have hexit : budget ≤ size := by
      have hng : ¬ (size < s'.A.getLastD 0 / s'.total + 1) := by
        intro hcontra
        rw [(planGuard_true_iff size s').mpr hcontra] at hg'
        cases hg'
      rw [hA'] at hng
      omega
    -- the guard held at the predecessor state s1
    have hguard1 : size * s1.total ≤ s1.msg_len := by
      rw [planGuard_true_iff, hA1] at hg1
      have hdle : size ≤ s1.msg_len / s1.total := by omega
      exact (Nat.le_div_iff_mul_le (by omega)).mp hdle
    -- combine: budget * t0 ≤ size * t0 ≤ m1
    have hbt : budget * s1.total ≤ L + s1.total * (h0 + lg s1.total) + sumLg s1.total := by
      calc budget * s1.total ≤ size * s1.total :=
            Nat.mul_le_mul_right s1.total hexit
        _ ≤ s1.msg_len := hguard1
        _ = L + s1.total * (h0 + lg s1.total) + sumLg s1.total := hm1
    -- digit-length relation between T and t0
    have hmono : lg s1.total ≤ lg T := by rw [hT]; exact lg_mono (Nat.le_succ _)
    have hle : lg T ≤ lg s1.total + 1 := by rw [hT]; exact lg_succ_le s1.total
    have hST : sumLg T = sumLg s1.total + lg s1.total := by rw [hT]; rfl
    have hqr : T * ((L + sumLg T) / T) + (L + sumLg T) % T = L + sumLg T :=
      Nat.div_add_mod _ _
    have hrT : (L + sumLg T) % T < T := Nat.mod_lt _ (by omega)
    refine ⟨hT2, hbudget, hexit, ?_, ?_⟩ <;>
    · set q := (L + sumLg T) / T with hq
      set r := (L + sumLg T) % T with hr
      rcases Nat.lt_or_ge (lg s1.total) (lg T) with hcase2 | hcase2
      · -- crossing: lg T = lg t0 + 1
        have hgeq : lg T = lg s1.total + 1 := by omega
        have hexpand : budget * s1.total =
            (h0 + lg s1.total) * s1.total + 2 * s1.total + q * s1.total := by
          rw [hbudget, hgeq]; ring
        have hkey : 2 * s1.total + q * s1.total ≤ L + sumLg s1.total := by
          rw [hexpand] at hbt
          have hcomm : s1.total * (h0 + lg s1.total) = (h0 + lg s1.total) * s1.total :=
            Nat.mul_comm _ _
          omega
        have hqr2 : q * s1.total + q + r = L + sumLg s1.total + lg s1.total := by
          have h1 : T * q = q * s1.total + q := by rw [hT]; ring
          rw [hST] at hqr
          omega
        omega
      · -- no crossing: lg T = lg t0
        have hgeq : lg T = lg s1.total := by omega
        have hexpand : budget * s1.total =
            (h0 + lg s1.total) * s1.total + s1.total + q * s1.total := by
          rw [hbudget, hgeq]; ring
        have hkey : s1.total + q * s1.total ≤ L + sumLg s1.total := by
          rw [hexpand] at hbt
          have hcomm : s1.total * (h0 + lg s1.total) = (h0 + lg s1.total) * s1.total :=
            Nat.mul_comm _ _
          omega
        have hqr2 : q * s1.total + q + r = L + sumLg s1.total + lg s1.total := by
          have h1 : T * q = q * s1.total + q := by rw [hT]; ring
          rw [hST] at hqr
          omega
        omega

theorem strLen_create_empty (n t mid : Nat) :
    strLenFrame (createFragment [] n t mid []) = 73 + lg mid + lg n + lg t := by
  have h8 : ("fragment" : String).length = 8 := rfl
  simp [strLenFrame, createFragment, digitsLen, h8]
  ring

theorem strLen_create_add (data : List Char) (n t mid : Nat) (fill : List Char) :
    strLenFrame (createFragment data n t mid fill) =
      strLenFrame (createFragment [] n t mid []) + data.length + fill.length := by
  simp [strLenFrame, createFragment]
  ring

theorem lg_zero : lg 0 = 0 := rfl

theorem fsZ_formula {budget T mid q : Nat}
    (hb : budget = strLenFrame (createFragment [] 0 0 mid []) + lg T + 1 + q) (n : Nat) :
    fsZ budget T mid n = (q : Int) + 1 - (lg n : Int) := by
  have h1 : strLenFrame (createFragment [] 0 0 mid []) = 73 + lg mid := by
    rw [strLen_create_empty, lg_zero]
    omega
  have h2 : strLenFrame (createFragment [] n T mid []) = 73 + lg mid + lg n + lg T :=
    strLen_create_empty n T mid
  unfold fsZ
  rw [h2, hb]
  rw [h1]
  push_cast
  ring

theorem fsZ_nonneg {budget T mid q : Nat}
    (hb : budget = strLenFrame (createFragment [] 0 0 mid []) + lg T + 1 + q)
    (hq : lg T ≤ q) {n : Nat} (hn : n ≤ T) : 0 ≤ fsZ budget T mid n := by
  rw [fsZ_formula hb]
  have := lg_mono hn
  omega

theorem cursor_succ (budget T mid n : Nat) :
    cursor budget T mid (n + 1) = cursor budget T mid n + fsZ budget T mid n := rfl

theorem cursor_formula {budget T mid q : Nat}
    (hb : budget = strLenFrame (createFragment [] 0 0 mid []) + lg T + 1 + q) :
    ∀ n, cursor budget T mid n = (n : Int) * ((q : Int) + 1) - (sumLg n : Int) := by
  intro n
  induction n with
  | zero => simp [cursor, sumLg]
  | succ n ih =>
    rw [cursor_succ, ih, fsZ_formula hb]
    have hS : sumLg (n + 1) = sumLg n + lg n := rfl
    rw [hS]
    push_cast
    ring

theorem cursor_mono {budget T mid q : Nat}
    (hb : budget = strLenFrame (createFragment [] 0 0 mid []) + lg T + 1 + q)
    (hq : lg T ≤ q) :
    ∀ j k, j ≤ k → k ≤ T → cursor budget T mid j ≤ cursor budget T mid k := by
  intro j k hjk hkT
  induction k with
  | zero =>
    have : j = 0 := by omega
    subst this; exact le_rfl
  | succ k ih =>
    rcases Nat.lt_or_ge j (k + 1) with h | h
    · have h1 : cursor budget T mid j ≤ cursor budget T mid k := ih (by omega) (by omega)
      have h2 : 0 ≤ fsZ budget T mid k := fsZ_nonneg hb hq (by omega)
      rw [cursor_succ]
      omega
    · have : j = k + 1 := by omega
      subst this; exact le_rfl

theorem cursor_nonneg {budget T mid q : Nat}
    (hb : budget = strLenFrame (createFragment [] 0 0 mid []) + lg T + 1 + q)
    (hq : lg T ≤ q) {n : Nat} (hn : n ≤ T) : 0 ≤ cursor budget T mid n := by
  have h0 : cursor budget T mid 0 = 0 := rfl
  have := cursor_mono hb hq 0 n (Nat.zero_le n) hn
  omega

theorem pySlice_take_drop {s : List Char} {a b : Int} (ha : 0 ≤ a) (hab : a ≤ b)
    (hbL : b ≤ (s.length : Int)) :
    pySlice s a b = (s.drop a.toNat).take (b - a).toNat := by
  simp only [pySlice]
  rw [if_neg (by omega), if_neg (by omega)]
  rw [min_eq_left (by omega), min_eq_left hbL]
  rw [List.drop_take]
  congr 1
  omega

theorem pySlice_to_end {s : List Char} {a b : Int} (ha : 0 ≤ a)
    (hb : (s.length : Int) ≤ b) :
    pySlice s a b = s.drop a.toNat := by
  simp only [pySlice]
  rw [if_neg (by omega), if_neg (by omega)]
  rw [min_eq_right hb]
  have hlen : ((s.length : Int)).toNat = s.length := by omega
  rcases le_or_lt a (s.length : Int) with hcase | hcase
  · rw [min_eq_left hcase, hlen, List.take_length]
  · rw [min_eq_right (by omega), hlen, List.take_length]
    rw [List.drop_length, List.drop_eq_nil_of_le (by omega)]

theorem fragLoop_cons (msg : List Char) (size budget T mid n : Nat) (ns : List Nat)
    (i fs : Int) :
    fragLoop msg size budget T mid (n :: ns) i fs =
      createFragment (pySlice msg i (min (i + fs) (msg.length : Int))) n T mid
        (List.replicate (if (msg.length : Int) < i + fs then
            (size : Int) - (budget : Int) + (i + fs - (msg.length : Int))
          else (size : Int) - (budget : Int)).toNat '0') ::
        fragLoop msg size budget T mid ns (i + fs) (fsZ budget T mid (n + 1)) := rfl

theorem fragLoop_concat (msg : List Char) (size budget T mid q : Nat)
    (hb : budget = strLenFrame (createFragment [] 0 0 mid []) + lg T + 1 + q)
    (hq : lg T ≤ q) :
    ∀ k n, n + k ≤ T → 0 ≤ cursor budget T mid n →
      (msg.length : Int) ≤ cursor budget T mid (n + k) →
      ((fragLoop msg size budget T mid (List.range' n k) (cursor budget T mid n)
          (fsZ budget T mid n)).map Frame.data).flatten =
        msg.drop (cursor budget T mid n).toNat := by
  intro k
  induction k with
  | zero =>
    intro n hnT h0c hlen
    have hlen0 : (msg.length : Int) ≤ cursor budget T mid n := by simpa using hlen
    have hdone : msg.length ≤ (cursor budget T mid n).toNat := by omega
    show ([] : List (List Char)).flatten = _
    rw [List.flatten_nil, List.drop_eq_nil_of_le hdone]
  | succ k ih =>
    intro n hnT h0c hlen
    have hfs0 : 0 ≤ fsZ budget T mid n := fsZ_nonneg hb hq (by omega)
    rw [List.range'_succ, fragLoop_cons]
    rcases le_or_lt (cursor budget T mid n + fsZ budget T mid n) (msg.length : Int) with
      hsplit | hsplit
    · rw [min_eq_left hsplit, pySlice_take_drop h0c (by omega) hsplit]
      have harg : ((cursor budget T mid n + fsZ budget T mid n - cursor budget T mid n)).toNat
          = (fsZ budget T mid n).toNat := by
        congr 1
        ring
      rw [harg]
      have hlen1 : (msg.length : Int) ≤ cursor budget T mid (n + 1 + k) := by
        have hidx : n + 1 + k = n + (k + 1) := by omega
        rw [hidx]
        exact hlen
      have hrec := ih (n + 1) (by omega) (by rw [cursor_succ]; omega) hlen1
      rw [← cursor_succ]
      simp only [List.map_cons, List.flatten_cons, createFragment]
      rw [hrec]
      have hBA : (cursor budget T mid (n + 1)).toNat =
          (cursor budget T mid n).toNat + (fsZ budget T mid n).toNat := by
        rw [cursor_succ]
        omega
      rw [hBA, ← List.drop_drop]
      exact List.take_append_drop _ _
    · rw [min_eq_right (le_of_lt hsplit), pySlice_to_end h0c le_rfl]
      have hlen1 : (msg.length : Int) ≤ cursor budget T mid (n + 1 + k) := by
        have hidx : n + 1 + k = n + (k + 1) := by omega
        rw [hidx]
        exact hlen
      have hrec := ih (n + 1) (by omega) (by rw [cursor_succ]; omega) hlen1
      rw [← cursor_succ]
      simp only [List.map_cons, List.flatten_cons, createFragment]
      rw [hrec]
      rw [List.drop_eq_nil_of_le (show msg.length ≤ (cursor budget T mid (n + 1)).toNat by
        rw [cursor_succ]; omega)]
      exact List.append_nil _

theorem fragLoop_map_num (msg : List Char) (size budget T mid : Nat) :
    ∀ (ns : List Nat) (i fs : Int),
      (fragLoop msg size budget T mid ns i fs).map Frame.num = ns := by
  intro ns
  induction ns with
  | nil => intro i fs; rfl
  | cons n ns ih =>
    intro i fs
    rw [fragLoop_cons]
    simp only [List.map_cons, createFragment]
    rw [ih]

theorem fragLoop_fields (msg : List Char) (size budget T mid : Nat) :
    ∀ (ns : List Nat) (i fs : Int) (f : Frame),
      f ∈ fragLoop msg size budget T mid ns i fs →
        f.id = mid ∧ f.total = T ∧ f.op = "fragment" := by
  intro ns
  induction ns with
  | nil => intro i fs f hf; cases hf
  | cons n ns ih =>
    intro i fs f hf
    rw [fragLoop_cons] at hf
    rcases List.mem_cons.mp hf with h | h
    · subst h; exact ⟨rfl, rfl, rfl⟩
    · exact ih _ _ f h

theorem fragLoop_slen (msg : List Char) (size budget T mid q : Nat)
    (hb : budget = strLenFrame (createFragment [] 0 0 mid []) + lg T + 1 + q)
    (hq : lg T ≤ q) (hbs : budget ≤ size) :
    ∀ k n, n + k ≤ T → 0 ≤ cursor budget T mid n →
      (∀ j, n ≤ j → j < n + k → cursor budget T mid j ≤ (msg.length : Int)) →
      ∀ f ∈ fragLoop msg size budget T mid (List.range' n k) (cursor budget T mid n)
          (fsZ budget T mid n), strLenFrame f = size := by
  intro k
  induction k with
  | zero =>
    intro n hnT h0c hcur f hf
    cases hf
  | succ k ih =>
    intro n hnT h0c hcur f hf
    have hfs0 : 0 ≤ fsZ budget T mid n := fsZ_nonneg hb hq (by omega)
    have hdr := strLen_create_empty n T mid
    have hfsval : fsZ budget T mid n =
        (budget : Int) - (strLenFrame (createFragment [] n T mid []) : Int) := rfl
    have hdrle : strLenFrame (createFragment [] n T mid []) ≤ budget := by omega
    have haL : cursor budget T mid n ≤ (msg.length : Int) :=
      hcur n le_rfl (by omega)
    rw [List.range'_succ, fragLoop_cons] at hf
    rcases List.mem_cons.mp hf with hhead | htail
    · subst hhead
      rcases le_or_lt (cursor budget T mid n + fsZ budget T mid n) (msg.length : Int) with
        hsplit | hsplit
      · -- full frame: payload length is the fragment size, fill is size - budget
        rw [min_eq_left hsplit, pySlice_take_drop h0c (by omega) hsplit,
          if_neg (by omega)]
        rw [strLen_create_add]
        rw [List.length_take, List.length_drop, List.length_replicate]
        have h1 : ((cursor budget T mid n + fsZ budget T mid n -
            cursor budget T mid n)).toNat = budget - strLenFrame (createFragment [] n T mid []) := by
          have : cursor budget T mid n + fsZ budget T mid n - cursor budget T mid n =
              fsZ budget T mid n := by ring
          rw [this, hfsval]
          omega
        rw [h1]
        have h2 : ((size : Int) - (budget : Int)).toNat = size - budget := by omega
        rw [h2]
        omega
      · -- last partial frame: payload is the rest, fill absorbs the shortfall
        rw [min_eq_right (le_of_lt hsplit), pySlice_to_end h0c le_rfl,
          if_pos (by omega)]
        rw [strLen_create_add]
        rw [List.length_drop, List.length_replicate]
        omega
    · -- tail frames
      have hcur1 : ∀ j, n + 1 ≤ j → j < n + 1 + k → cursor budget T mid j ≤ (msg.length : Int) := by
        intro j h1 h2
        exact hcur j (by omega) (by omega)
      have h0c1 : 0 ≤ cursor budget T mid (n + 1) := by
        rw [cursor_succ]; omega
      have := ih (n + 1) (by omega) h0c1 hcur1 f (by rw [← cursor_succ] at htail; exact htail)
      exact this

theorem fragmentGen_eq {fuel size mid : Nat} {msg : List Char} {frames : List Frame}
    (h : fragmentGen fuel msg size mid = some frames) :
    ∃ budget T, determineNFragments fuel msg.length size
        (strLenFrame (createFragment [] 0 0 mid [])) = some (budget, T) ∧
      frames = fragGenBody msg size budget T mid := by
  unfold fragmentGen at h
  obtain ⟨bt, hdet, heq⟩ := Option.map_eq_some'.mp h
  exact ⟨bt.fst, bt.snd, hdet, heq.symm⟩

theorem fragGenBody_eq (msg : List Char) (size budget T mid : Nat) :
    fragGenBody msg size budget T mid =
      fragLoop msg size budget T mid (List.range' 0 T) (cursor budget T mid 0)
        (fsZ budget T mid 0) := by
  unfold fragGenBody
  rw [List.range_eq_range']
  rfl

theorem fragLoop_len (msg : List Char) (size budget T mid : Nat) (ns : List Nat)
    (i fs : Int) : (fragLoop msg size budget T mid ns i fs).length = ns.length := by
  have := congrArg List.length (fragLoop_map_num msg size budget T mid ns i fs)
  simpa [List.length_map] using this

/-- C1 : for every message and size cap for which fragmentation actually occurs
(the serialized message is strictly longer than the cap and planning succeeds),
the frames come out ordered by their 0-based `num` field, and concatenating
their `data` fields in that order reproduces the serialized message exactly,
with no byte lost and no byte duplicated. -/
theorem frag_round_trip (fuel size mid : Nat) (msg : List Char) (frames : List Frame)
    (hbig : size < msg.length)
    (hgen : fragmentGen fuel msg size mid = some frames) :
    frames.map Frame.num = List.range frames.length ∧
      (frames.map Frame.data).flatten = msg := by
  obtain ⟨budget, T, hdet, hfr⟩ := fragmentGen_eq hgen
  obtain ⟨hT2, hbudget, hbs, hq, hkey⟩ := key_bounds hbig hdet
  subst hfr
  rw [fragGenBody_eq]
  have hlenT : (fragLoop msg size budget T mid (List.range' 0 T) (cursor budget T mid 0)
      (fsZ budget T mid 0)).length = T := by
    rw [fragLoop_len, List.length_range']
  constructor
  · rw [fragLoop_map_num, hlenT, List.range_eq_range']
  · have hqr : T * ((msg.length + sumLg T) / T) + (msg.length + sumLg T) % T =
        msg.length + sumLg T := Nat.div_add_mod _ _
    have hrT : (msg.length + sumLg T) % T < T := Nat.mod_lt _ (by omega)
    have hcurT : (msg.length : Int) ≤ cursor budget T mid (0 + T) := by
      have h0T : (0 : Nat) + T = T := by omega
      rw [h0T, cursor_formula hbudget]
      have hcast : (T : Int) * (((msg.length + sumLg T) / T : Nat) + 1) =
          ((T * ((msg.length + sumLg T) / T) : Nat) : Int) + (T : Int) := by
        push_cast
        ring
      rw [hcast]
      omega
    have := fragLoop_concat msg size budget T mid ((msg.length + sumLg T) / T)
      hbudget hq T 0 (by omega) (by rw [show cursor budget T mid 0 = 0 from rfl]) hcurT
    rw [this]
    rw [show cursor budget T mid 0 = 0 from rfl]
    rfl

/-- C2 : every frame produced by fragmentation serializes to exactly the size
cap (so in particular to at most the size cap): the payload slice plus the
`fill` padding always land every frame, including the final one, precisely on
the cap. -/
theorem frag_frame_size (fuel size mid : Nat) (msg : List Char) (frames : List Frame)
    (hbig : size < msg.length)
    (hgen : fragmentGen fuel msg size mid = some frames) :
    ∀ f ∈ frames, strLenFrame f = size ∧ strLenFrame f ≤ size := by
  obtain ⟨budget, T, hdet, hfr⟩ := fragmentGen_eq hgen
  obtain ⟨hT2, hbudget, hbs, hq, hkey⟩ := key_bounds hbig hdet
  subst hfr
  rw [fragGenBody_eq]
  obtain ⟨t0, ht0⟩ : ∃ t0, T = t0 + 1 := ⟨T - 1, by omega⟩
  have hqr : T * ((msg.length + sumLg T) / T) + (msg.length + sumLg T) % T =
      msg.length + sumLg T := Nat.div_add_mod _ _
  have hrT : (msg.length + sumLg T) % T < T := Nat.mod_lt _ (by omega)
  have hST : sumLg T = sumLg t0 + lg t0 := by rw [ht0]; rfl
  have hTq : T * ((msg.length + sumLg T) / T) =
      t0 * ((msg.length + sumLg T) / T) + ((msg.length + sumLg T) / T) := by
    rw [ht0]
    ring
  have hlgt0 : lg t0 ≤ lg T := lg_mono (by omega)
  have hcurt0 : cursor budget T mid t0 ≤ (msg.length : Int) := by
    rw [cursor_formula hbudget]
    have hcast : (t0 : Int) * (((msg.length + sumLg T) / T : Nat) + 1) =
        ((t0 * ((msg.length + sumLg T) / T) : Nat) : Int) + (t0 : Int) := by
      push_cast
      ring
    rw [hcast]
    omega
  have hcur : ∀ j, 0 ≤ j → j < 0 + T → cursor budget T mid j ≤ (msg.length : Int) := by
    intro j hj0 hjT
    have hjt0 : j ≤ t0 := by omega
    have := cursor_mono hbudget hq j t0 hjt0 (by omega)
    omega
  intro f hf
  have heq := fragLoop_slen msg size budget T mid ((msg.length + sumLg T) / T)
    hbudget hq hbs T 0 (by omega) (by rw [show cursor budget T mid 0 = 0 from rfl]) hcur f hf
  exact ⟨heq, le_of_eq heq⟩

/-- C8 : for every fragmented message, the `num` fields of the yielded frames
are exactly `0, 1, ..., total-1` in order (no gaps, no repeats), and every
frame carries the same `total`, equal to the number of frames yielded. -/
theorem frag_num_complete (fuel size mid : Nat) (msg : List Char) (frames : List Frame)
    (hgen : fragmentGen fuel msg size mid = some frames) :
    frames.map Frame.num = List.range frames.length ∧
      ∀ f ∈ frames, f.total = frames.length := by
  obtain ⟨budget, T, hdet, hfr⟩ := fragmentGen_eq hgen
  subst hfr
  rw [fragGenBody_eq]
  have hlenT : (fragLoop msg size budget T mid (List.range' 0 T) (cursor budget T mid 0)
      (fsZ budget T mid 0)).length = T := by
    rw [fragLoop_len, List.length_range']
  constructor
  · rw [fragLoop_map_num, hlenT, List.range_eq_range']
  · intro f hf
    rw [hlenT]
    exact (fragLoop_fields msg size budget T mid _ _ _ f hf).2.1

set_option maxRecDepth 100000

/-- Witness for C1: the 130-character message with cap 120 is fragmented, and
concatenation of the frame payloads reproduces it. -/
theorem frag_round_trip_witness :
    120 < wMsg.length ∧ (wFrames.map Frame.data).flatten = wMsg :=
  ⟨by decide, (frag_round_trip 32 120 0 wMsg wFrames (by decide) rfl).2⟩

/-- Witness for C2: the first frame of the witness run serializes to exactly
the cap 120. -/
theorem frag_frame_size_witness :
    120 < wMsg.length ∧ strLenFrame (wFrames.headD defaultFrame) = 120 :=
  ⟨by decide,
    (frag_frame_size 32 120 0 wMsg wFrames (by decide) rfl
      (wFrames.headD defaultFrame) (by decide)).1⟩

/-- Witness for C8: the witness frames have `num` fields `0, 1, 2` and all
carry `total = 3`, the number of frames. -/
theorem frag_num_complete_witness :
    wFrames.map Frame.num = List.range wFrames.length ∧
      (wFrames.headD defaultFrame).total = wFrames.length :=
  ⟨(frag_num_complete 32 120 0 wMsg wFrames rfl).1,
    (frag_num_complete 32 120 0 wMsg wFrames rfl).2
      (wFrames.headD defaultFrame) (by decide)⟩

theorem eraseA_step (s : PlanState) : eraseA (planStep s) = aStep (eraseA s) := by
  unfold planStep aStep eraseA
  by_cases hc : lg (s.total + 1) > lg s.total
  · simp only [if_pos hc]
  · simp only [if_neg hc]

theorem planStep_last (s : PlanState) :
    (planStep s).A.getLastD 0 = (planStep s).msg_len := by
  unfold planStep
  by_cases hc : lg (s.total + 1) > lg s.total
  · simp only [if_pos hc]
    exact List.getLastD_concat _ _ _
  · simp only [if_neg hc]
    exact List.getLastD_concat _ _ _

theorem planRun_amendRun (size : Nat) :
    ∀ fuel (s : PlanState), s.A.getLastD 0 = s.msg_len →
      (planRun size fuel s).map eraseA = amendRun size fuel (eraseA s) := by
  intro fuel
  induction fuel with
  | zero => intro s hA; rfl
  | succ fuel ih =>
    intro s hA
    by_cases hg : size < s.msg_len / s.total + 1
    · have hgB : planGuard size s = true := by
        rw [planGuard_true_iff, hA]
        exact hg
      rw [planRun, if_pos hgB, amendRun, if_pos (show size < (eraseA s).msg_len / (eraseA s).total + 1 from hg)]
      rw [ih (planStep s) (planStep_last s), eraseA_step]
    · have hgB : planGuard size s = false := by
        rw [← Bool.not_eq_true, planGuard_true_iff, hA]
        exact hg
      rw [planRun, if_neg (by rw [hgB]; exact Bool.false_ne_true),
        amendRun, if_neg (show ¬ size < (eraseA s).msg_len / (eraseA s).total + 1 from hg)]
      rfl

/-- C3 counterexample: on message length 100, cap 120, header size 73 the
source planner iterates while `A[-1]/total + 1 > size` and returns
`(workingLength/total + 1, total) = (107, 3)`, whereas the claimed loop guard
`workingLength/total > sizeCap` and claimed result
`workingLength/total` would give `(106, 3)`: the claim's description of the
guard and of the returned payload budget is off by one. -/
theorem planner_claim_counterexample :
    determineNFragments 16 100 120 73 = some (107, 3) ∧
      determineNFragmentsClaim 16 100 120 73 = some (106, 3) ∧
      ((107, 3) : Nat × Nat) ≠ ((106, 3) : Nat × Nat) :=
  ⟨by decide, by decide, by decide⟩

/-- C3 (amended) : the planner iterates exactly while
`workingLength / total + 1 > sizeCap` (the guard reads `A[-1]`, which always
equals the working length), growing the header by 2 characters and adding the
overhead to the working length each time the trial fragment count crosses a
decimal digit boundary, and on exit returns
`payloadPerFragment = workingLength / total + 1` (integer division) together
with `totalFragments = total`: the source planner agrees with the transparent
loop `determineNFragmentsAmended` implementing exactly that description. -/
theorem planner_amended (fuel msg_len size header_size : Nat) :
    determineNFragments fuel msg_len size header_size =
      determineNFragmentsAmended fuel msg_len size header_size := by
  have h1 := planRun_amendRun size fuel
    ⟨[msg_len + header_size], msg_len + header_size, header_size, 1⟩ rfl
  have h2 : eraseA ⟨[msg_len + header_size], msg_len + header_size, header_size, 1⟩ =
      (⟨msg_len + header_size, header_size, 1⟩ : AState) := rfl
  rw [h2] at h1
  show Option.map (fun s : PlanState => (s.msg_len / s.total + 1, s.total))
      (planRun size fuel ⟨[msg_len + header_size], msg_len + header_size, header_size, 1⟩) =
    Option.map (fun s : AState => (s.msg_len / s.total + 1, s.total))
      (amendRun size fuel ⟨msg_len + header_size, header_size, 1⟩)
  rw [← h1, Option.map_map]
  rfl

theorem planRun_divergent {L h0 size : Nat}
    (hg : ∀ s, PlanInv L h0 s → planGuard size s = true) :
    ∀ fuel (s : PlanState), PlanInv L h0 s → planRun size fuel s = none := by
  intro fuel
  induction fuel with
  | zero => intro s hinv; rfl
  | succ fuel ih =>
    intro s hinv
    rw [planRun, if_pos (hg s hinv)]
    exact ih _ (planStep_inv hinv)

/-- C4 : counterexample to termination.  On message length 100 with cap 74
and header size 73 — the cap strictly exceeds the minimal header size 73 —
the loop guard of `_determine_n_fragments` holds at every reachable state, so
the planner's iterative search never reaches its loop exit: for every amount
of fuel the loop is still running.  (The `except RuntimeError` handler of the
caller never fires either, since the loop raises nothing: the source simply
hangs.) -/
theorem planner_nonterminating : ∀ fuel, determineNFragments fuel 100 74 73 = none := by
  have hg : ∀ s, PlanInv 100 73 s → planGuard 74 s = true := by
    intro s hinv
    obtain ⟨ht, hm, hh, hA⟩ := hinv
    rw [planGuard_true_iff, hA]
    have hx : s.total * (73 + lg s.total) = 73 * s.total + s.total * lg s.total := by ring
    have hmul : 74 * s.total ≤ s.msg_len := by
      rw [hm, hx]
      rcases le_or_lt s.total 100 with hc | hc
      · omega
      · have h2 : 2 ≤ lg s.total := lg_ge_two (by omega)
        have h3 : s.total * 2 ≤ s.total * lg s.total := Nat.mul_le_mul_left _ h2
        omega
    have hdiv : 74 ≤ s.msg_len / s.total := (Nat.le_div_iff_mul_le ht).mpr hmul
    omega
  intro fuel
  show Option.map (fun s : PlanState => (s.msg_len / s.total + 1, s.total))
      (planRun 74 fuel ⟨[100 + 73], 100 + 73, 73, 1⟩) = none
  rw [planRun_divergent hg fuel _ (planInv_init 100 73)]
  rfl

/-- C5 : the failure behaviour claimed for a cap below the minimal header
size never materializes.  On message length 100 with cap 50 (below the
minimal header size 73) the planner loop guard holds at every reachable
state, so `_fragment_generator` never gets a planning result: no
`HeaderTooLarge` is surfaced, nothing is logged, and no frame sequence —
empty or otherwise — is ever produced; the source hangs instead.  For every
amount of fuel the generator yields nothing. -/
theorem frag_small_cap_hangs :
    ∀ fuel, fragmentGen fuel (List.replicate 100 'a') 50 0 = none := by
  have hg : ∀ s, PlanInv 100 73 s → planGuard 50 s = true := by
    intro s hinv
    obtain ⟨ht, hm, hh, hA⟩ := hinv
    rw [planGuard_true_iff, hA]
    have hx : s.total * (73 + lg s.total) = 73 * s.total + s.total * lg s.total := by ring
    have hmul : 50 * s.total ≤ s.msg_len := by
      rw [hm, hx]
      omega
    have hdiv : 50 ≤ s.msg_len / s.total := (Nat.le_div_iff_mul_le ht).mpr hmul
    omega
  intro fuel
  unfold fragmentGen
  have hh73 : strLenFrame (createFragment [] 0 0 0 []) = 73 := rfl
  have hlen : (List.replicate 100 'a').length = 100 := by simp
  rw [hh73, hlen]
  show Option.map (fun bt : Nat × Nat => fragGenBody (List.replicate 100 'a') 50 bt.1 bt.2 0)
      (Option.map (fun s : PlanState => (s.msg_len / s.total + 1, s.total))
        (planRun 50 fuel ⟨[100 + 73], 100 + 73, 73, 1⟩)) = none
  rw [planRun_divergent hg fuel _ (planInv_init 100 73)]
  rfl

theorem fragmentGen_ids {fuel size mid : Nat} {msg : List Char} {frames : List Frame}
    (h : fragmentGen fuel msg size mid = some frames) :
    ∀ f ∈ frames, f.id = mid := by
  obtain ⟨budget, T, hdet, hfr⟩ := fragmentGen_eq h
  subst hfr
  rw [fragGenBody_eq]
  intro f hf
  exact (fragLoop_fields msg size budget T mid _ _ _ f hf).1

theorem fragment_seed_aux {α : Type} (ser : α → Nat → Option (List Char)) (fuel : Nat)
    (st : FragState) (message : α) (fragment_size : Nat) (mid : Option Nat) :
    (fragment ser fuel st message fragment_size mid).1.fragmentation_seed =
      st.fragmentation_seed + (if mid.isSome then 0 else 1) := by
  have hseed : (nextSeedState st mid).fragmentation_seed =
      st.fragmentation_seed + (if mid.isSome then 0 else 1) := by
    cases mid <;> simp [nextSeedState]
  unfold fragment serializeLogged
  cases hser : ser message (chosenMid st mid) with
  | none => simpa using hseed
  | some s =>
    by_cases hle : s.length ≤ fragment_size
    · simp only [if_pos hle]
      simpa using hseed
    · simp only [if_neg hle]
      simpa using hseed

theorem fragment_frames_id {α : Type} (ser : α → Nat → Option (List Char)) (fuel : Nat)
    (st : FragState) (message : α) (fragment_size : Nat) (mid : Option Nat)
    (fs : List Frame)
    (h : (fragment ser fuel st message fragment_size mid).2.1 =
      FragResult.fragmented (some fs)) :
    ∀ f ∈ fs, f.id = chosenMid st mid := by
  unfold fragment serializeLogged at h
  cases hser : ser message (chosenMid st mid) with
  | none =>
    rw [hser] at h
    simp at h
  | some s =>
    rw [hser] at h
    by_cases hle : s.length ≤ fragment_size
    · simp [hle] at h
    · simp only [if_neg hle] at h
      have hgen : fragmentGen fuel s fragment_size (chosenMid st mid) = some fs := by
        have := h
        simp at this
        exact this
      exact fragmentGen_ids hgen

/-- C6 : a message whose serialized length is at most the size cap is
returned as a single-element result holding the original unserialized message
object itself — not a frame record; fragmentation is skipped entirely. -/
theorem fragment_short_circuit {α : Type} (ser : α → Nat → Option (List Char))
    (fuel : Nat) (st : FragState) (message : α) (fragment_size : Nat)
    (mid : Option Nat) (s : List Char)
    (hser : ser message (chosenMid st mid) = some s)
    (hle : s.length ≤ fragment_size) :
    (fragment ser fuel st message fragment_size mid).2.1 =
      FragResult.unfragmented message := by
  unfold fragment serializeLogged
  rw [hser]
  simp [hle]

/-- Witness for C6: a serializer producing 130 characters with cap 200 leads
to the unfragmented short-circuit holding the original message. -/
theorem fragment_short_circuit_witness :
    wSer 0 (chosenMid ⟨5⟩ none) = some wMsg ∧ wMsg.length ≤ 200 ∧
      (fragment wSer 7 ⟨5⟩ (0 : Nat) 200 none).2.1 = FragResult.unfragmented 0 :=
  ⟨rfl, by decide, fragment_short_circuit wSer 7 ⟨5⟩ 0 200 none wMsg rfl (by decide)⟩

/-- C7 : when the external serializer signals failure, `fragment` returns the
empty result (no frames emitted), the failure is reported to the diagnostic
log (modelled from the spec: the serializer collaborator reports
`SerializationFailed` to the diagnostic sink), and no exception escapes —
the function returns normally. -/
theorem fragment_serialize_failure {α : Type} (ser : α → Nat → Option (List Char))
    (fuel : Nat) (st : FragState) (message : α) (fragment_size : Nat)
    (mid : Option Nat) (hser : ser message (chosenMid st mid) = none) :
    (fragment ser fuel st message fragment_size mid).2.1 = FragResult.empty ∧
      LogEntry.serializationFailed ∈
        (fragment ser fuel st message fragment_size mid).2.2 := by
  unfold fragment serializeLogged
  rw [hser]
  simp

/-- Witness for C7: the always-failing serializer yields the empty result and
the logged failure. -/
theorem fragment_serialize_failure_witness :
    wSerFail 0 (chosenMid ⟨0⟩ none) = none ∧
      (fragment wSerFail 5 ⟨0⟩ (0 : Nat) 80 none).2.1 = FragResult.empty ∧
      LogEntry.serializationFailed ∈ (fragment wSerFail 5 ⟨0⟩ (0 : Nat) 80 none).2.2 :=
  ⟨rfl, (fragment_serialize_failure wSerFail 5 ⟨0⟩ 0 80 none rfl).1,
    (fragment_serialize_failure wSerFail 5 ⟨0⟩ 0 80 none rfl).2⟩

/-- C9 : on a single fragmenter instance, two calls without an explicit id
draw two distinct ids from the per-instance post-incremented counter (the
first call's frames carry the old seed, the second call's frames carry the
incremented seed), and a call with an explicit id stamps exactly that id on
every frame it produces. -/
theorem fragment_id_assignment {α : Type} (ser : α → Nat → Option (List Char))
    (fuel1 fuel2 : Nat) (st : FragState) (m1 m2 : α) (sz1 sz2 : Nat)
    (fs1 fs2 : List Frame)
    (h1 : (fragment ser fuel1 st m1 sz1 none).2.1 = FragResult.fragmented (some fs1))
    (h2 : (fragment ser fuel2 (fragment ser fuel1 st m1 sz1 none).1 m2 sz2 none).2.1 =
      FragResult.fragmented (some fs2)) :
    (∀ f ∈ fs1, f.id = st.fragmentation_seed) ∧
      (∀ f ∈ fs2, f.id = st.fragmentation_seed + 1) ∧
      st.fragmentation_seed ≠ st.fragmentation_seed + 1 ∧
      ∀ (fuel3 mid3 sz3 : Nat) (st3 : FragState) (m3 : α) (fs3 : List Frame),
        (fragment ser fuel3 st3 m3 sz3 (some mid3)).2.1 =
            FragResult.fragmented (some fs3) →
          ∀ f ∈ fs3, f.id = mid3 := by
  have hseed1 : (fragment ser fuel1 st m1 sz1 none).1.fragmentation_seed =
      st.fragmentation_seed + 1 := by
    rw [fragment_seed_aux]
    rfl
  refine ⟨?_, ?_, by omega, ?_⟩
  · have := fragment_frames_id ser fuel1 st m1 sz1 none fs1 h1
    simpa [chosenMid] using this
  · have := fragment_frames_id ser fuel2 (fragment ser fuel1 st m1 sz1 none).1
      m2 sz2 none fs2 h2
    simpa [chosenMid, hseed1] using this
  · intro fuel3 mid3 sz3 st3 m3 fs3 h3
    have := fragment_frames_id ser fuel3 st3 m3 sz3 (some mid3) fs3 h3
    simpa [chosenMid] using this

/-- Witness for C9: two consecutive no-id calls on a fresh instance produce
frames stamped 0 and 1 respectively. -/
theorem fragment_id_assignment_witness :
    ((wFrames.headD defaultFrame).id = (⟨0⟩ : FragState).fragmentation_seed) ∧
      ((((fragmentGen 32 wMsg 120 1).getD []).headD defaultFrame).id =
        (⟨0⟩ : FragState).fragmentation_seed + 1) :=
  ⟨(fragment_id_assignment wSer 32 32 ⟨0⟩ 0 0 120 120 wFrames
      ((fragmentGen 32 wMsg 120 1).getD []) rfl rfl).1 _ (by decide),
    (fragment_id_assignment wSer 32 32 ⟨0⟩ 0 0 120 120 wFrames
      ((fragmentGen 32 wMsg 120 1).getD []) rfl rfl).2.1 _ (by decide)⟩

/-- C10 : a call to `fragment` never mutates the input message (the model is
pure: the only state it returns is the new seed, and the short-circuit result
carries the input message value unchanged), and the seed is the only instance
state that changes: it increases by exactly one if and only if no explicit id
was supplied, on every path — serialization failure, the unfragmented
short-circuit and the fragmented path alike — so auto-generated ids are
consumed even when no frames are produced. -/
theorem fragment_state_effect {α : Type} (ser : α → Nat → Option (List Char))
    (fuel : Nat) (st : FragState) (message : α) (fragment_size : Nat)
    (mid : Option Nat) :
    (fragment ser fuel st message fragment_size mid).1.fragmentation_seed =
        st.fragmentation_seed + (if mid.isSome then 0 else 1) ∧
      ∀ m, (fragment ser fuel st message fragment_size mid).2.1 =
          FragResult.unfragmented m → m = message := by
  refine ⟨fragment_seed_aux ser fuel st message fragment_size mid, ?_⟩
  intro m hm
  unfold fragment serializeLogged at hm
  cases hser : ser message (chosenMid st mid) with
  | none =>
    rw [hser] at hm
    simp at hm
  | some s =>
    rw [hser] at hm
    by_cases hle : s.length ≤ fragment_size
    · simp [hle] at hm
      exact hm.symm
    · simp [hle] at hm

/-- Witness for C10: a no-id call on seed 4 leaves the seed at 5. -/
theorem fragment_state_effect_witness :
    (fragment wSer 7 ⟨4⟩ (0 : Nat) 200 none).1.fragmentation_seed = 4 + 1 := by
  have h := (fragment_state_effect wSer 7 ⟨4⟩ 0 200 none).1
  simpa using h
